import Mathlib

/-!
Verification of the diagram-algebra / spider-calculus core of the repository
(`discopy/frobenius.py`, `discopy/zx.py`).

The data model follows the source: objects are atomic names, types are
sequences of objects, a diagram is a list of layers `(left, box, right)`
together with its domain and codomain, and the generating boxes are spiders,
swaps and generic boxes.  Operations present in `src/` (`Diagram.spiders`,
`Spider.__init__`, `Spider.dagger`, `Spider.unfuse`, `Functor.__call__`,
`box2zx`, `Spider.__repr__`) are translated from the source; the monoidal
core they use (`then`, `tensor`, identities, coercions of types to identity
diagrams, the swap of two composite types, diagram dagger and normal form)
lives outside `src/` and is modelled from the spec, as marked in the
individual doc comments.
-/

namespace Frobenius

/-- A frobenius object is a self-dual pivotal object; only its name matters
here (`frobenius.Ob`). -/
abbrev Ob := String

/-- A frobenius type is an ordered sequence of objects (`frobenius.Ty`). -/
abbrev Ty := List Ob

/-- Concatenation of a list of lists. -/
def concatL {α : Type} : List (List α) → List α
  | [] => []
  | l :: ls => l ++ concatL ls

/-- `typ ** n`, the n-fold concatenation of a type with itself. -/
def tpow (t : Ty) (n : ℕ) : Ty := concatL (List.replicate n t)

/-- The generating boxes of a frobenius diagram: spider boxes
(`frobenius.Spider`, over an atomic type, with an optional phase), swaps of
two atomic wires (`frobenius.Swap`) and generic named boxes
(`frobenius.Box`). -/
inductive Box where
  | spider (nIn nOut : ℕ) (typ : Ob) (phase : Option Int)
  | swap (l r : Ob)
  | gen (name : String) (gdom gcod : Ty)
deriving DecidableEq

/-- The domain of a box; a spider with `n` legs in over atomic `x` has
domain `x ** n`. -/
def Box.dom : Box → Ty
  | .spider nIn _ t _ => List.replicate nIn t
  | .swap l r => [l, r]
  | .gen _ d _ => d

/-- The codomain of a box; a spider with `m` legs out over atomic `x` has
codomain `x ** m`. -/
def Box.cod : Box → Ty
  | .spider _ nOut t _ => List.replicate nOut t
  | .swap l r => [r, l]
  | .gen _ _ c => c

/-- Modelled from the spec: a layer places one box at a horizontal offset,
`(left_type, box, right_type)` (the monoidal core is not under `src/`). -/
structure Layer where
  left : Ty
  box : Box
  right : Ty
deriving DecidableEq

/-- Modelled from the spec: a diagram is an ordered sequence of layers with a
domain and a codomain (the monoidal core is not under `src/`). -/
structure Diagram where
  dom : Ty
  layers : List Layer
  cod : Ty
deriving DecidableEq

/-- Modelled from the spec: the identity diagram on a type has no layers and
equal domain and codomain. -/
def Diagram.id (t : Ty) : Diagram := ⟨t, [], t⟩

/-- Modelled from the spec: sequential composition `then` (`>>`)
concatenates the layers; the result has the first diagram's domain and the
second's codomain.  The `AxiomError` raised on a boundary mismatch is not
modelled: every composition performed by the verified operations is
well-typed. -/
def Diagram.comp (f g : Diagram) : Diagram := ⟨f.dom, f.layers ++ g.layers, g.cod⟩

/-- Modelled from the spec: parallel composition `tensor` (`@`); each layer
of the second diagram is re-offset by the first diagram's codomain, and each
layer of the first keeps the second diagram's domain on its right. -/
def Diagram.tensor (f g : Diagram) : Diagram :=
  ⟨f.dom ++ g.dom,
   f.layers.map (fun L => ⟨L.left, L.box, L.right ++ g.dom⟩)
     ++ g.layers.map (fun L => ⟨f.cod ++ L.left, L.box, L.right⟩),
   f.cod ++ g.cod⟩

/-- A box used as the one-layer diagram with empty padding. -/
def Box.toDiagram (b : Box) : Diagram := ⟨b.dom, [⟨[], b, []⟩], b.cod⟩

/-- Modelled from the spec: the swap of one atomic wire past a type, built
from atomic `Swap` boxes (`cls.swap` comes from the monoidal core, not under
`src/`; the spec specifies its boundaries `a ⊗ b → b ⊗ a`). -/
def swapOb (x : Ob) (b : Ty) : Diagram :=
  match b with
  | [] => Diagram.id [x]
  | y :: rest =>
      Diagram.comp (Diagram.tensor (Box.toDiagram (Box.swap x y)) (Diagram.id rest))
        (Diagram.tensor (Diagram.id [y]) (swapOb x rest))

/-- Modelled from the spec: the swap of two composite types, with domain
`a ++ b` and codomain `b ++ a`, built from atomic swaps. -/
def swapTy (a b : Ty) : Diagram :=
  match a with
  | [] => Diagram.id b
  | x :: a2 =>
      Diagram.comp (Diagram.tensor (Diagram.id [x]) (swapTy a2 b))
        (Diagram.tensor (swapOb x b) (Diagram.id a2))

theorem swapOb_dom (x : Ob) (b : Ty) : (swapOb x b).dom = x :: b := by
  cases b <;> rfl

theorem swapOb_cod (x : Ob) (b : Ty) : (swapOb x b).cod = b ++ [x] := by
  induction b with
  | nil => rfl
  | cons y rest ih => simp [swapOb, Diagram.comp, Diagram.tensor, Diagram.id, ih]

theorem swapTy_dom (a b : Ty) : (swapTy a b).dom = a ++ b := by
  induction a with
  | nil => rfl
  | cons x a2 ih => simp [swapTy, Diagram.comp, Diagram.tensor, Diagram.id, ih]

theorem swapTy_cod (a b : Ty) : (swapTy a b).cod = b ++ a := by
  induction a with
  | nil => simp [swapTy, Diagram.id]
  | cons x a2 ih => simp [swapTy, Diagram.comp, Diagram.tensor, Diagram.id, swapOb_cod]

/-- The errors that the verified constructors can report.  `notAtomic`
models `NotAtomicTypeError`. -/
inductive FrobErr where
  | notAtomic
deriving DecidableEq

/-- `Spider.__init__`: constructing a spider box over a type.  It records
the legs and the phase, and `assert_isatomic(typ)` fails with
`NotAtomicTypeError` unless the type has exactly one object (the checker
`assert_isatomic` itself is not under `src/`; the spec states it fails on
length ≠ 1).  On failure no box (and hence no diagram) is produced. -/
def spiderInit (nIn nOut : ℕ) (typ : Ty) (phase : Option Int) :
    Except FrobErr Box :=
  match typ with
  | [t] => .ok (Box.spider nIn nOut t phase)
  | _ => .error .notAtomic

/-- `Spider.dagger`: swap legs in and out, negate the phase (`None` stays
`None`).  On the other generators: a swap exchanges its wires, a generic box
has domain and codomain exchanged. -/
def Box.daggerB : Box → Box
  | .spider nIn nOut t p =>
      .spider nOut nIn t (match p with | none => none | some q => some (-q))
  | .swap l r => .swap r l
  | .gen n d c => .gen n c d

/-- Modelled from the spec: the dagger of a diagram reverses the layers and
daggers each box (used by the `a < b` branch of `unfuse`; the compact core
is not under `src/`). -/
def Diagram.daggerD (d : Diagram) : Diagram :=
  ⟨d.cod, (d.layers.reverse).map (fun L => ⟨L.left, L.box.daggerB, L.right⟩), d.dom⟩

/-- `result.dom[a:b]`, a Python slice. -/
def pySlice (D : Ty) (a b : ℕ) : Ty := (D.take b).drop a

/-- One step of the domain-side loop of `Diagram.spiders`:
`result <<= result.dom[:i*j+i+j] @ cls.swap(t, result.dom[i*j+i+j : i*n+j])
@ result.dom[i*n+j+1:]` (types coerce to identity diagrams, `@` associates
to the left, `x <<= y` is `x = y >> x`). -/
def spiderSwapIn (n i j : ℕ) (t : Ob) (r : Diagram) : Diagram :=
  Diagram.comp
    (Diagram.tensor
      (Diagram.tensor (Diagram.id (r.dom.take (i * j + i + j)))
        (swapTy [t] (pySlice r.dom (i * j + i + j) (i * n + j))))
      (Diagram.id (r.dom.drop (i * n + j + 1))))
    r

/-- One step of the codomain-side loop of `Diagram.spiders`:
`result >>= result.cod[:i*j+i+j] @ cls.swap(result.cod[i*j+i+j : i*m+j], t)
@ result.cod[i*m+j+1:]`. -/
def spiderSwapOut (m i j : ℕ) (t : Ob) (r : Diagram) : Diagram :=
  Diagram.comp r
    (Diagram.tensor
      (Diagram.tensor (Diagram.id (r.cod.take (i * j + i + j)))
        (swapTy (pySlice r.cod (i * j + i + j) (i * m + j)) [t]))
      (Diagram.id (r.cod.drop (i * m + j + 1))))

/-- `Diagram.spiders`: a diagram of interleaving spiders.  One spider per
object of `typ` is tensored (with the matching phase if a phase list is
given, else `None`), then for each object index `i` the two loops insert
swaps before and after to transpose the block-major layout into the
leg-major layout. -/
def Diagram.spiders (n m : ℕ) (typ : Ty) (phase : Option (List (Option Int))) :
    Diagram :=
  let ps := match phase with | none => typ.map (fun _ => none) | some l => l
  let init := (typ.zip ps).foldl
    (fun acc xp => Diagram.tensor acc (Box.toDiagram (Box.spider n m xp.1 xp.2)))
    (Diagram.id [])
  (typ.enum).foldl
    (fun acc it =>
      let acc1 := (List.range (n - 1)).foldl
        (fun a j => spiderSwapIn n it.1 j it.2 a) acc
      (List.range (m - 1)).foldl
        (fun a j => spiderSwapOut m it.1 j it.2 a) acc1)
    init

/-- A hypergraph functor into the same category: a map from atomic objects
to types and a map from generating boxes to diagrams (`frobenius.Functor`
with `cod = Category(Ty, Diagram)`). -/
structure Functor where
  ob : Ob → Ty
  ar : Box → Diagram

/-- A functor applied to a type maps each object and concatenates. -/
def Functor.applyTy (F : Functor) (t : Ty) : Ty := concatL (t.map F.ob)

/-- `Functor.__call__` on a generating box: a spider box is never looked up
in the arrow map; the target category's spider constructor is called with
`(len(other.dom), len(other.cod), self(other.typ))` — and no phase.  Any
other box falls back to the arrow map (the compact functor core is not under
`src/`; the spec specifies the box-to-diagram mapping for generating
boxes). -/
def Functor.onBox (F : Functor) : Box → Diagram
  | .spider nIn nOut t _ => Diagram.spiders nIn nOut (F.applyTy [t]) none
  | b => F.ar b

/-- The four minimal arities that `unfuse` returns unchanged. -/
def minimalArities : List (ℕ × ℕ) := [(0, 1), (1, 0), (2, 1), (1, 2)]

/-- Termination measure for `Spider.unfuse` on `(legs in, legs out,
phased?)`: minimal phase-free spiders cost 0; otherwise the cost grows with
`a`, penalises `b ≠ 1`, `a < b` and a phase, so that every recursive call of
`unfuse` strictly decreases it. -/
def unfuseMeasure (a b : ℕ) (s : Bool) : ℕ :=
  if s = false ∧ (a, b) ∈ minimalArities then 0
  else 2 * a + (if b = 1 then 0 else 2 * b + 2) + (if a < b then 1 else 0)
    + (if s then 4 else 0) + 1

theorem mu_dec_phased_left (a b : ℕ) :
    unfuseMeasure a 1 false < unfuseMeasure a b true := by
  simp [unfuseMeasure, minimalArities, Prod.ext_iff]
  split_ifs <;> omega

theorem mu_dec_phased_right (a b : ℕ) :
    unfuseMeasure 1 b false < unfuseMeasure a b true := by
  simp [unfuseMeasure, minimalArities, Prod.ext_iff]
  split_ifs <;> omega

theorem mu_dec_flip (a b : ℕ) (h1 : (a, b) ∉ minimalArities)
    (h3 : a < b) :
    unfuseMeasure b a false < unfuseMeasure a b false := by
  simp [unfuseMeasure, minimalArities, Prod.ext_iff] at *
  split_ifs <;> omega

theorem mu_dec_split_left (a b : ℕ) (h1 : (a, b) ∉ minimalArities)
    (h2 : ¬(a = 1 ∧ b = 1)) (h3 : ¬a < b) (h4 : b ≠ 1) :
    unfuseMeasure a 1 false < unfuseMeasure a b false := by
  simp [unfuseMeasure, minimalArities, Prod.ext_iff] at *
  split_ifs <;> omega

theorem mu_dec_split_right (a b : ℕ) (h1 : (a, b) ∉ minimalArities)
    (h2 : ¬(a = 1 ∧ b = 1)) (h3 : ¬a < b) (h4 : b ≠ 1) :
    unfuseMeasure 1 b false < unfuseMeasure a b false := by
  simp [unfuseMeasure, minimalArities, Prod.ext_iff] at *
  split_ifs <;> omega

theorem mu_dec_odd_left (a b : ℕ) (h1 : (a, b) ∉ minimalArities)
    (h2 : ¬(a = 1 ∧ b = 1)) (h3 : ¬a < b) (h4 : ¬b ≠ 1) (h5 : a % 2 = 1) :
    unfuseMeasure (a - 1) 1 false < unfuseMeasure a b false := by
  simp [unfuseMeasure, minimalArities, Prod.ext_iff] at *
  split_ifs <;> omega

theorem mu_dec_base (a b : ℕ) (h1 : (a, b) ∉ minimalArities)
    (h3 : ¬a < b) (h4 : ¬b ≠ 1) :
    unfuseMeasure 2 1 false < unfuseMeasure a b false := by
  simp [unfuseMeasure, minimalArities, Prod.ext_iff] at *
  split_ifs <;> omega

theorem mu_dec_even (a b : ℕ) (h1 : (a, b) ∉ minimalArities)
    (h2 : ¬(a = 1 ∧ b = 1)) (h3 : ¬a < b) (h4 : ¬b ≠ 1) (h5 : ¬a % 2 = 1) :
    unfuseMeasure (a / 2) 1 false < unfuseMeasure a b false := by
  simp [unfuseMeasure, minimalArities, Prod.ext_iff] at *
  split_ifs <;> omega

/-- `Spider.unfuse`: decompose an `(a, b)` spider over atomic `x` into
three- and one-legged spiders.  The branches, in source order: a phased
spider routes its phase through a `(1,1)` phase shifter between an unfused
fan-in and fan-out; minimal arities return the spider itself; `(1,1)` is the
identity wire; `a < b` recurses on the dagger and daggers the result back;
`b ≠ 1` splits as fan-in then fan-out; odd `a` peels one leg; even `a`
splits the legs in half and fuses with a (not further unfused) binary
spider. -/
def Spider.unfuse (x : Ob) : ℕ → ℕ → Option Int → Diagram
  | a, b, some p =>
      Diagram.comp
        (Diagram.comp (Spider.unfuse x a 1 none)
          (Box.toDiagram (Box.spider 1 1 x (some p))))
        (Spider.unfuse x 1 b none)
  | a, b, none =>
      if h1 : (a, b) ∈ minimalArities then Box.toDiagram (Box.spider a b x none)
      else if h2 : a = 1 ∧ b = 1 then Diagram.id (List.replicate a x)
      else if h3 : a < b then (Spider.unfuse x b a none).daggerD
      else if h4 : b ≠ 1 then
        Diagram.comp (Spider.unfuse x a 1 none) (Spider.unfuse x 1 b none)
      else if h5 : a % 2 = 1 then
        Diagram.comp
          (Diagram.tensor (Spider.unfuse x (a - 1) 1 none) (Diagram.id [x]))
          (Spider.unfuse x 2 1 none)
      else
        Diagram.comp
          (Diagram.tensor (Spider.unfuse x (a / 2) 1 none)
            (Spider.unfuse x (a / 2) 1 none))
          (Box.toDiagram (Box.spider 2 1 x none))
termination_by a b p => unfuseMeasure a b p.isSome
decreasing_by
  · exact mu_dec_phased_left a b
  · exact mu_dec_phased_right a b
  · exact mu_dec_flip a b h1 h3
  · exact mu_dec_split_left a b h1 h2 h3 h4
  · exact mu_dec_split_right a b h1 h2 h3 h4
  · exact mu_dec_odd_left a b h1 h2 h3 h4 h5
  · exact mu_dec_base a b h1 h3 h4
  · exact mu_dec_even a b h1 h2 h3 h4 h5

/-- The recursion of `unfuse` with an explicit fuel bound; `none` means the
fuel ran out before the recursion bottomed. -/
def unfuseFuel (x : Ob) : ℕ → ℕ → ℕ → Option Int → Option Diagram
  | 0, _, _, _ => none
  | fuel + 1, a, b, some p => do
      let u1 ← unfuseFuel x fuel a 1 none
      let u2 ← unfuseFuel x fuel 1 b none
      pure (Diagram.comp
        (Diagram.comp u1 (Box.toDiagram (Box.spider 1 1 x (some p)))) u2)
  | fuel + 1, a, b, none =>
      if (a, b) ∈ minimalArities then pure (Box.toDiagram (Box.spider a b x none))
      else if a = 1 ∧ b = 1 then pure (Diagram.id (List.replicate a x))
      else if a < b then (unfuseFuel x fuel b a none).map Diagram.daggerD
      else if b ≠ 1 then do
        let u1 ← unfuseFuel x fuel a 1 none
        let u2 ← unfuseFuel x fuel 1 b none
        pure (Diagram.comp u1 u2)
      else if a % 2 = 1 then do
        let u1 ← unfuseFuel x fuel (a - 1) 1 none
        let u2 ← unfuseFuel x fuel 2 1 none
        pure (Diagram.comp (Diagram.tensor u1 (Diagram.id [x])) u2)
      else do
        let u1 ← unfuseFuel x fuel (a / 2) 1 none
        pure (Diagram.comp (Diagram.tensor u1 u1)
          (Box.toDiagram (Box.spider 2 1 x none)))

theorem unfuseFuel_spec (x : Ob) :
    ∀ fuel a b (p : Option Int), unfuseMeasure a b p.isSome < fuel →
      unfuseFuel x fuel a b p = some (Spider.unfuse x a b p) := by
  intro fuel
  induction fuel with
  | zero => intro a b p h; exact absurd h (Nat.not_lt_zero _)
  | succ f ih =>
      intro a b p h
      match p with
      | some q =>
          simp only [Option.isSome_some] at h
          have d1 := mu_dec_phased_left a b
          have d2 := mu_dec_phased_right a b
          have e1 : unfuseFuel x f a 1 none = some (Spider.unfuse x a 1 none) :=
            ih a 1 none (by simp only [Option.isSome_none]; omega)
          have e2 : unfuseFuel x f 1 b none = some (Spider.unfuse x 1 b none) :=
            ih 1 b none (by simp only [Option.isSome_none]; omega)
          rw [Spider.unfuse.eq_1]
          simp [unfuseFuel, e1, e2]
      | none =>
          simp only [Option.isSome_none] at h
          rw [Spider.unfuse.eq_2]
          by_cases h1 : (a, b) ∈ minimalArities
          · simp [unfuseFuel, h1]
          by_cases h2 : a = 1 ∧ b = 1
          · simp [unfuseFuel, h1, h2, minimalArities, -Prod.mk_one_one,
              Prod.ext_iff]
          by_cases h3 : a < b
          · have d := mu_dec_flip a b h1 h3
            have e := ih b a none (by simp only [Option.isSome_none]; omega)
            simp [unfuseFuel, h1, h2, h3, e]
          by_cases h4 : b ≠ 1
          · have d1 := mu_dec_split_left a b h1 h2 h3 h4
            have d2 := mu_dec_split_right a b h1 h2 h3 h4
            have e1 := ih a 1 none (by simp only [Option.isSome_none]; omega)
            have e2 := ih 1 b none (by simp only [Option.isSome_none]; omega)
            simp [unfuseFuel, h1, h2, h3, h4, e1, e2]
          by_cases h5 : a % 2 = 1
          · have d1 := mu_dec_odd_left a b h1 h2 h3 h4 h5
            have d2 := mu_dec_base a b h1 h3 h4
            have e1 := ih (a - 1) 1 none (by simp only [Option.isSome_none]; omega)
            have e2 := ih 2 1 none (by simp only [Option.isSome_none]; omega)
            simp [unfuseFuel, h1, h2, h3, h4, h5, e1, e2]
          · have d1 := mu_dec_even a b h1 h2 h3 h4 h5
            have e1 := ih (a / 2) 1 none (by simp only [Option.isSome_none]; omega)
            simp [unfuseFuel, h1, h2, h3, h4, h5, e1]

/-! ### Frobenius (matrix) semantics of diagrams

Each atomic wire denotes a two-dimensional space; a spider denotes the
usual special-commutative-Frobenius "copy" tensor, with its phase denoting
the invertible scalar on the all-ones entry.  Scalars are dual numbers
`c.1 + c.2 ε` over ℤ (with `ε ^ 2 = 0`), and a phase value `p` denotes the
unit `1 + p ε`, so distinct phases denote distinct scalars and phases add
under fusion.  This is the denotational model used to settle the
spider-fusion and unfusion claims. -/

/-- Dual numbers over ℤ: `(a, b)` stands for `a + b ε`. -/
abbrev Dual := Int × Int

def addD (a b : Dual) : Dual := (a.1 + b.1, a.2 + b.2)

def mulD (a b : Dual) : Dual := (a.1 * b.1, a.1 * b.2 + a.2 * b.1)

def zeroD : Dual := (0, 0)

def oneD : Dual := (1, 0)

/-- A matrix of dual numbers, as a list of rows. -/
abbrev Mat := List (List Dual)

def width : Mat → ℕ
  | [] => 0
  | r :: _ => r.length

def scaleRow (a : Dual) (r : List Dual) : List Dual := r.map (mulD a)

def addRow (r1 r2 : List Dual) : List Dual := List.zipWith addD r1 r2

/-- A row vector times a matrix. -/
def rowMul (ra : List Dual) (B : Mat) : List Dual :=
  (List.zipWith scaleRow ra B).foldr addRow (List.replicate (width B) zeroD)

def matMul (A B : Mat) : Mat := A.map (fun ra => rowMul ra B)

/-- Kronecker product, leftmost wire most significant. -/
def kron (A B : Mat) : Mat :=
  concatL (A.map (fun ra => B.map (fun rb =>
    concatL (ra.map (fun a => rb.map (fun b => mulD a b))))))

def idMat (s : ℕ) : Mat :=
  (List.range s).map (fun i => (List.range s).map (fun j =>
    if i = j then oneD else zeroD))

/-- The matrix of a generating box, given an interpretation `f` of optional
phases as scalars.  A spider has entry 1 at (all zeros, all zeros), entry
`f phase` at (all ones, all ones) and 0 elsewhere; a swap is the wire
permutation; a generic box (never encountered in the verified diagrams) is
interpreted as the zero matrix of the right shape. -/
def boxSem (f : Option Int → Dual) : Box → Mat
  | .spider n m _ p =>
      (List.range (2 ^ n)).map (fun i => (List.range (2 ^ m)).map (fun j =>
        if i = 0 ∧ j = 0 then oneD
        else if i = 2 ^ n - 1 ∧ j = 2 ^ m - 1 then f p
        else zeroD))
  | .swap _ _ =>
      [[oneD, zeroD, zeroD, zeroD], [zeroD, zeroD, oneD, zeroD],
       [zeroD, oneD, zeroD, zeroD], [zeroD, zeroD, zeroD, oneD]]
  | .gen _ d c =>
      (List.range (2 ^ d.length)).map (fun _ =>
        List.replicate (2 ^ c.length) zeroD)

/-- The matrix of a layer: identities on the paddings, the box in the
middle. -/
def layerSem (f : Option Int → Dual) (L : Layer) : Mat :=
  kron (idMat (2 ^ L.left.length))
    (kron (boxSem f L.box) (idMat (2 ^ L.right.length)))

/-- The matrix of a diagram: the product of its layer matrices (the
identity matrix of the domain for the identity diagram). -/
def sem (f : Option Int → Dual) (d : Diagram) : Mat :=
  match d.layers with
  | [] => idMat (2 ^ d.dom.length)
  | L :: ls => ls.foldl (fun M L2 => matMul M (layerSem f L2)) (layerSem f L)

/-- The valued phase interpretation: no phase denotes 1, a phase `p`
denotes the unit `1 + p ε`. -/
def phiVal : Option Int → Dual
  | none => oneD
  | some q => (1, q)

/-- The formal phase interpretation: every phase denotes the formal unit
`1 + ε` (used as a decidable stepping stone and transported to `phiVal`). -/
def phiFormal : Option Int → Dual
  | none => oneD
  | some _ => (1, 1)

/-- The spider phases occurring in a diagram, in layer order. -/
def phaseList (d : Diagram) : List (Option Int) :=
  d.layers.filterMap (fun L =>
    match L.box with | .spider _ _ _ p => some p | _ => none)

/-- Scaling the ε part: the ring morphism of dual numbers sending ε to
`p ε`. -/
def gp (p : Int) (a : Dual) : Dual := (a.1, p * a.2)

def matMap (g : Dual → Dual) (M : Mat) : Mat := M.map (List.map g)

theorem gp_mul (p : Int) (a b : Dual) :
    gp p (mulD a b) = mulD (gp p a) (gp p b) := by
  simp [gp, mulD]; ring

theorem gp_add (p : Int) (a b : Dual) :
    gp p (addD a b) = addD (gp p a) (gp p b) := by
  simp [gp, addD]; ring

theorem gp_zero (p : Int) : gp p zeroD = zeroD := by simp [gp, zeroD]

theorem gp_one (p : Int) : gp p oneD = oneD := by simp [gp, oneD]

theorem map_scaleRow (p : Int) (a : Dual) (r : List Dual) :
    (scaleRow a r).map (gp p) = scaleRow (gp p a) (r.map (gp p)) := by
  induction r with
  | nil => rfl
  | cons b r ih =>
      simp only [scaleRow, List.map_cons] at ih ⊢
      rw [gp_mul]
      exact congrArg _ ih

theorem map_addRow (p : Int) : ∀ r1 r2 : List Dual,
    (addRow r1 r2).map (gp p) = addRow (r1.map (gp p)) (r2.map (gp p))
  | [], r2 => by simp [addRow]
  | a :: r1, [] => by simp [addRow]
  | a :: r1, b :: r2 => by
      simp only [addRow, List.zipWith_cons_cons, List.map_cons]
      rw [gp_add]
      exact congrArg _ (map_addRow p r1 r2)

theorem width_matMap (p : Int) (B : Mat) :
    width (matMap (gp p) B) = width B := by
  cases B <;> simp [width, matMap]

theorem map_foldr_addRow (p : Int) (z : List Dual) (rows : List (List Dual)) :
    (rows.foldr addRow z).map (gp p)
      = (rows.map (List.map (gp p))).foldr addRow (z.map (gp p)) := by
  induction rows with
  | nil => rfl
  | cons r rows ih =>
      simp only [List.foldr_cons, List.map_cons]
      rw [map_addRow, ih]

theorem map_zipWith_scaleRow (p : Int) : ∀ (ra : List Dual) (B : Mat),
    (List.zipWith scaleRow ra B).map (List.map (gp p))
      = List.zipWith scaleRow (ra.map (gp p)) (matMap (gp p) B)
  | [], B => by simp [matMap]
  | a :: ra, [] => by simp [matMap]
  | a :: ra, rb :: B => by
      simp only [List.zipWith_cons_cons, List.map_cons, matMap]
      rw [map_scaleRow]
      exact congrArg _ (map_zipWith_scaleRow p ra B)

theorem map_rowMul (p : Int) (ra : List Dual) (B : Mat) :
    (rowMul ra B).map (gp p)
      = rowMul (ra.map (gp p)) (matMap (gp p) B) := by
  rw [rowMul, rowMul, width_matMap, map_foldr_addRow, map_zipWith_scaleRow]
  congr 1
  simp [List.map_replicate, gp_zero]

theorem matMul_map (p : Int) (A B : Mat) :
    matMap (gp p) (matMul A B) = matMul (matMap (gp p) A) (matMap (gp p) B) := by
  simp only [matMap, matMul, List.map_map]
  apply List.map_congr_left
  intro ra _
  exact map_rowMul p ra B

theorem map_concatL {α β : Type} (g : α → β) (ls : List (List α)) :
    (concatL ls).map g = concatL (ls.map (List.map g)) := by
  induction ls with
  | nil => rfl
  | cons l ls ih => simp only [concatL, List.map_append, List.map_cons, ih]

theorem kron_row_map (p : Int) (ra rb : List Dual) :
    (concatL (ra.map (fun a => rb.map (fun b => mulD a b)))).map (gp p)
      = concatL ((ra.map (gp p)).map (fun a =>
          (rb.map (gp p)).map (fun b => mulD a b))) := by
  induction ra with
  | nil => rfl
  | cons a ra ih =>
      simp only [List.map_cons, concatL, List.map_append]
      rw [ih]
      congr 1
      exact map_scaleRow p a rb

theorem kron_slice_map (p : Int) (ra : List Dual) (B : Mat) :
    (B.map (fun rb => concatL (ra.map (fun a =>
        rb.map (fun b => mulD a b))))).map (List.map (gp p))
      = (matMap (gp p) B).map (fun rb => concatL ((ra.map (gp p)).map (fun a =>
          rb.map (fun b => mulD a b)))) := by
  induction B with
  | nil => rfl
  | cons rb B ih =>
      simp only [List.map_cons, matMap] at ih ⊢
      rw [kron_row_map, ih]

theorem kron_map (p : Int) (B : Mat) : ∀ A : Mat,
    matMap (gp p) (kron A B) = kron (matMap (gp p) A) (matMap (gp p) B)
  | [] => rfl
  | ra :: A => by
      simp only [kron, List.map_cons, concatL, matMap, List.map_append]
      congr 1
      · exact kron_slice_map p ra B
      · exact kron_map p B A

theorem idMat_map (p : Int) (s : ℕ) : matMap (gp p) (idMat s) = idMat s := by
  unfold matMap idMat
  rw [List.map_map]
  apply List.map_congr_left
  intro i _
  simp only [Function.comp_apply, List.map_map]
  apply List.map_congr_left
  intro j _
  by_cases h : i = j <;> simp [h, gp_one, gp_zero]

theorem boxSem_map (p : Int) (f : Option Int → Dual) (b : Box) :
    boxSem (fun q => gp p (f q)) b = matMap (gp p) (boxSem f b) := by
  cases b with
  | spider n m t q =>
      unfold boxSem matMap
      rw [List.map_map]
      apply List.map_congr_left
      intro i _
      simp only [Function.comp_apply, List.map_map]
      apply List.map_congr_left
      intro j _
      simp only [Function.comp_apply, apply_ite (gp p), gp_one, gp_zero]
  | swap l r => simp [boxSem, matMap, gp_one, gp_zero]
  | gen nm d c =>
      unfold boxSem matMap
      rw [List.map_map]
      apply List.map_congr_left
      intro i _
      simp [Function.comp, List.map_replicate, gp_zero]

theorem layerSem_map (p : Int) (f : Option Int → Dual) (L : Layer) :
    layerSem (fun q => gp p (f q)) L = matMap (gp p) (layerSem f L) := by
  rw [layerSem, layerSem, kron_map, kron_map, idMat_map, idMat_map,
    boxSem_map]

theorem semFold_map (p : Int) (f : Option Int → Dual) :
    ∀ (ls : List Layer) (M : Mat),
      ls.foldl (fun M2 L2 => matMul M2 (layerSem (fun q => gp p (f q)) L2))
          (matMap (gp p) M)
        = matMap (gp p) (ls.foldl (fun M2 L2 => matMul M2 (layerSem f L2)) M) := by
  intro ls
  induction ls with
  | nil => intro M; rfl
  | cons L2 ls ih =>
      intro M
      simp only [List.foldl_cons]
      rw [layerSem_map, ← matMul_map, ih]

theorem sem_map (p : Int) (f : Option Int → Dual) (d : Diagram) :
    sem (fun q => gp p (f q)) d = matMap (gp p) (sem f d) := by
  rcases hd : d.layers with _ | ⟨L, ls⟩
  · simp only [sem, hd, idMat_map]
  · simp only [sem, hd]
    rw [layerSem_map, semFold_map]

/-- The phase slot of a box: `some phase` for a spider, `none` otherwise. -/
def boxPhase : Box → Option (Option Int)
  | .spider _ _ _ p => some p
  | _ => none

theorem boxSem_congr (f1 f2 : Option Int → Dual) (b : Box)
    (h : ∀ p, boxPhase b = some p → f1 p = f2 p) :
    boxSem f1 b = boxSem f2 b := by
  cases b with
  | spider n m t p => simp only [boxSem, h p rfl]
  | swap l r => rfl
  | gen nm d c => rfl

theorem layerSem_congr (f1 f2 : Option Int → Dual) (L : Layer)
    (h : ∀ p, boxPhase L.box = some p → f1 p = f2 p) :
    layerSem f1 L = layerSem f2 L := by
  unfold layerSem
  rw [boxSem_congr f1 f2 L.box h]

theorem semFold_congr (f1 f2 : Option Int → Dual) :
    ∀ (ls : List Layer) (M : Mat),
      (∀ q ∈ ls.filterMap (fun L => boxPhase L.box), f1 q = f2 q) →
      ls.foldl (fun M2 L2 => matMul M2 (layerSem f1 L2)) M
        = ls.foldl (fun M2 L2 => matMul M2 (layerSem f2 L2)) M
  | [], M, _ => rfl
  | L :: ls, M, h => by
      simp only [List.foldl_cons]
      rw [layerSem_congr f1 f2 L (fun p hp =>
        h p (List.mem_filterMap.mpr ⟨L, List.mem_cons_self L ls, hp⟩))]
      exact semFold_congr f1 f2 ls _ (fun q hq => h q (by
        rcases List.mem_filterMap.mp hq with ⟨L2, hL2, hb⟩
        exact List.mem_filterMap.mpr ⟨L2, List.mem_cons_of_mem L hL2, hb⟩))

theorem sem_congr (f1 f2 : Option Int → Dual) (d : Diagram)
    (h : ∀ q ∈ phaseList d, f1 q = f2 q) : sem f1 d = sem f2 d := by
  have h2 : ∀ q ∈ d.layers.filterMap (fun L => boxPhase L.box), f1 q = f2 q := by
    intro q hq
    refine h q ?_
    rcases List.mem_filterMap.mp hq with ⟨L2, hL2, hb⟩
    refine List.mem_filterMap.mpr ⟨L2, hL2, ?_⟩
    cases hL : L2.box <;> simp_all [boxPhase]
  rcases hd : d.layers with _ | ⟨L, ls⟩
  · simp only [sem, hd]
  · simp only [sem, hd]
    rw [hd] at h2
    rw [layerSem_congr f1 f2 L (fun p hp =>
      h2 p (List.mem_filterMap.mpr ⟨L, List.mem_cons_self L ls, hp⟩))]
    exact semFold_congr f1 f2 ls _ (fun q hq => h2 q (by
      rcases List.mem_filterMap.mp hq with ⟨L2, hL2, hb⟩
      exact List.mem_filterMap.mpr ⟨L2, List.mem_cons_of_mem L hL2, hb⟩))

/-- Erasing phase values (every `some q` becomes `some 0`) on a box. -/
def eraseBox : Box → Box
  | .spider n m t p => .spider n m t (p.map (fun _ => 0))
  | b => b

/-- Erasing phase values in every layer of a diagram. -/
def erasePhases (d : Diagram) : Diagram :=
  ⟨d.dom, d.layers.map (fun L => ⟨L.left, eraseBox L.box, L.right⟩), d.cod⟩

theorem boxSem_erase (b : Box) :
    boxSem phiFormal (eraseBox b) = boxSem phiFormal b := by
  cases b with
  | spider n m t p => cases p <;> rfl
  | swap l r => rfl
  | gen nm d c => rfl

theorem layerSem_erase (L : Layer) :
    layerSem phiFormal ⟨L.left, eraseBox L.box, L.right⟩ = layerSem phiFormal L := by
  unfold layerSem
  rw [boxSem_erase]

theorem semFold_erase : ∀ (ls : List Layer) (M : Mat),
    (ls.map (fun L => (⟨L.left, eraseBox L.box, L.right⟩ : Layer))).foldl
        (fun M2 L2 => matMul M2 (layerSem phiFormal L2)) M
      = ls.foldl (fun M2 L2 => matMul M2 (layerSem phiFormal L2)) M
  | [], M => rfl
  | L :: ls, M => by
      simp only [List.map_cons, List.foldl_cons, layerSem_erase]
      exact semFold_erase ls _

/-- The formal interpretation is blind to phase values. -/
theorem sem_erase (d : Diagram) :
    sem phiFormal (erasePhases d) = sem phiFormal d := by
  rcases hd : d.layers with _ | ⟨L, ls⟩
  · simp only [sem, erasePhases, hd, List.map_nil]
  · simp only [sem, erasePhases, hd, List.map_cons, layerSem_erase]
    exact semFold_erase ls _

/-- Transport of a semantic equality from the formal phase interpretation to
the valued one, for diagrams whose spider phases are all `none` or a single
value `p`. -/
theorem semVal_of_formal (p : Int) (d1 d2 : Diagram)
    (hf : sem phiFormal d1 = sem phiFormal d2)
    (h1 : ∀ q ∈ phaseList d1, q = none ∨ q = some p)
    (h2 : ∀ q ∈ phaseList d2, q = none ∨ q = some p) :
    sem phiVal d1 = sem phiVal d2 := by
  have key : ∀ d : Diagram, (∀ q ∈ phaseList d, q = none ∨ q = some p) →
      sem phiVal d = matMap (gp p) (sem phiFormal d) := by
    intro d hd
    rw [← sem_map]
    apply sem_congr
    intro q hq
    rcases hd q hq with rfl | rfl
    · simp [phiVal, phiFormal, gp, oneD]
    · simp [phiVal, phiFormal, gp]
  rw [key d1 h1, key d2 h2, hf]

/-- `Spider.unfuse` agrees with its fuel-indexed version at fuel one more
than the termination measure (this is how concrete instances of `unfuse`
are evaluated). -/
theorem unfuse_eq_fuel (x : Ob) (a b : ℕ) (p : Option Int) :
    Spider.unfuse x a b p
      = (unfuseFuel x (unfuseMeasure a b p.isSome + 1) a b p).getD
          (Diagram.id []) := by
  rw [unfuseFuel_spec x _ a b p (Nat.lt_succ_self _)]
  rfl

/-- Modelled from the spec: the interchange of two consecutive layers whose
boxes occupy disjoint wire ranges, with the second box strictly to the left
of the first; the paddings are transposed accordingly (the monoidal core is
not under `src/`). -/
def interchangePair (L1 L2 : Layer) : Layer × Layer :=
  let m := L1.left.drop (L2.left.length + L2.box.dom.length)
  (⟨L2.left, L2.box, m ++ L1.box.dom ++ L1.right⟩,
   ⟨L2.left ++ L2.box.cod ++ m, L1.box, L1.right⟩)

/-- One bubbling step over a layer list with an explicit head: swap two
adjacent layers whenever the second box lies strictly left of the first
(sorting by increasing offset; ties keep the original order). -/
def bubbleAux (L : Layer) : List Layer → List Layer
  | [] => [L]
  | L2 :: rest =>
      if L2.left.length + L2.box.dom.length ≤ L.left.length then
        (interchangePair L L2).1 :: bubbleAux (interchangePair L L2).2 rest
      else L :: bubbleAux L2 rest

/-- Modelled from the spec: one interchange pass over the layers. -/
def bubblePass : List Layer → List Layer
  | [] => []
  | L :: ls => bubbleAux L ls

/-- Interchange passes until a fixpoint, with fuel. -/
def normalFormAux : ℕ → List Layer → List Layer
  | 0, ls => ls
  | fuel + 1, ls =>
      let ls2 := bubblePass ls
      if ls2 = ls then ls else normalFormAux fuel ls2

/-- Modelled from the spec: `normal_form` repeatedly applies interchange to
reach the canonical layer ordering (layers sorted by increasing offset, ties
broken by original order); quadratically many passes suffice for a bubble
sort, so the fuel never runs out. -/
def normalForm (d : Diagram) : Diagram :=
  ⟨d.dom, normalFormAux (d.layers.length * d.layers.length + 1) d.layers, d.cod⟩

/-- Python runtime errors observable at the verified boundaries. -/
inductive PyErr where
  | nameError (name : String)
  | typeError
deriving DecidableEq

/-- `factory_name(type(self))` for a frobenius spider. -/
def factoryName : String := "frobenius.Spider"

/-- The repr of the atomic type of a spider (the exact rendering is
immaterial to the claims). -/
def reprOb (t : Ob) : String := "frobenius.Ty(frobenius.Ob(" ++ t ++ "))"

/-- `Spider.__repr__`: formats `factory_name + "(n, m, repr(typ) ++ phasePart)"`
where the phase part is `"" if self.phase is None else repr(phase)`.  The
name `phase` is unbound in the method body (the field is `self.phase`), so
evaluating the format argument raises `NameError` whenever the phase is not
`None`; with no phase the string is returned normally. -/
def spiderRepr (nIn nOut : ℕ) (typ : Ob) (phase : Option Int) :
    Except PyErr String :=
  match phase with
  | none =>
      .ok (factoryName ++ "(" ++ toString nIn ++ ", " ++ toString nOut ++ ", "
        ++ reprOb typ ++ ")")
  | some _ => .error (.nameError "phase")

end Frobenius

namespace Frobenius

/-! ### Claims C2, C5, C6, C9, C10 -/

/-- C2: a frobenius functor maps a spider box by calling the target
category's spider constructor on `(n, m, F(x))`; the result never consults
the functor's arrow map (two functors with the same object map but different
arrow maps agree on every spider box), and concretely
`F(Spider(2,1,x)) = F.cod.ar.spiders(2, 1, F(x))`. -/
theorem functor_spider_override (ob : Ob → Ty) (ar ar2 : Box → Diagram)
    (n m : ℕ) (t : Ob) (p : Option Int) :
    Functor.onBox ⟨ob, ar⟩ (Box.spider n m t p)
        = Diagram.spiders n m (Functor.applyTy ⟨ob, ar⟩ [t]) none ∧
      Functor.onBox ⟨ob, ar⟩ (Box.spider n m t p)
        = Functor.onBox ⟨ob, ar2⟩ (Box.spider n m t p) ∧
      Functor.onBox ⟨ob, ar⟩ (Box.spider 2 1 t none)
        = Diagram.spiders 2 1 (Functor.applyTy ⟨ob, ar⟩ [t]) none :=
  ⟨rfl, rfl, rfl⟩

/-- C9: applying a frobenius functor to a spider box discards the phase:
any two phases (including `None`) give the same image, namely the target's
phase-free spider on the mapped type. -/
theorem functor_spider_phase_discarded (F : Functor) (n m : ℕ) (t : Ob)
    (p1 p2 : Option Int) :
    F.onBox (Box.spider n m t p1) = F.onBox (Box.spider n m t p2) ∧
      F.onBox (Box.spider n m t p1)
        = Diagram.spiders n m (F.applyTy [t]) none :=
  ⟨rfl, rfl⟩

/-- C10: `repr` of a phased frobenius spider raises `NameError` (the method
body references the unbound name `phase`); `repr` of a phase-free spider
returns normally. -/
theorem spider_repr_name_error (n m : ℕ) (t : Ob) :
    (∀ p : Int, spiderRepr n m t (some p) = .error (.nameError "phase")) ∧
      spiderRepr n m t none
        = .ok (factoryName ++ "(" ++ toString n ++ ", " ++ toString m ++ ", "
            ++ reprOb t ++ ")") :=
  ⟨fun _ => rfl, rfl⟩

/-- C5: constructing a spider over a type whose length is not 1 fails with
`NotAtomicTypeError`, and no partially-built value is returned. -/
theorem spiderInit_not_atomic (nIn nOut : ℕ) (typ : Ty) (phase : Option Int)
    (h : typ.length ≠ 1) :
    spiderInit nIn nOut typ phase = .error .notAtomic := by
  match typ, h with
  | [], _ => rfl
  | [t], h => exact absurd rfl h
  | t :: u :: rest, _ => rfl

/-- Witness for C5 at the composite type `Ty('x', 'y')`. -/
theorem spiderInit_not_atomic_witness :
    (["x", "y"] : Ty).length ≠ 1 ∧
      spiderInit 2 1 ["x", "y"] none = .error .notAtomic :=
  ⟨by decide, spiderInit_not_atomic 2 1 ["x", "y"] none (by decide)⟩

/-- C6: the dagger of a spider swaps legs in and out and negates the phase
(`None` maps to `None`), and dagger is an involution on spiders. -/
theorem spider_dagger_involution (n m : ℕ) (x : Ob) (p : Option Int) :
    (Box.spider n m x p).daggerB
        = Box.spider m n x (match p with | none => none | some q => some (-q)) ∧
      ((Box.spider n m x p).daggerB).daggerB = Box.spider n m x p := by
  refine ⟨rfl, ?_⟩
  cases p with
  | none => rfl
  | some q => simp [Box.daggerB]

end Frobenius

namespace Frobenius

/-! ### Claims C1, C4, C7 -/

/-- C4: `Spider.unfuse` terminates for all leg counts and phases: the
fuel-indexed transcription of its recursion completes within fuel
`unfuseMeasure a b _ + 1` (each branch strictly decreases the measure) and
returns the value of the total function. -/
theorem unfuse_terminates (x : Ob) (a b : ℕ) (p : Option Int) :
    unfuseFuel x (unfuseMeasure a b p.isSome + 1) a b p
      = some (Spider.unfuse x a b p) :=
  unfuseFuel_spec x _ a b p (Nat.lt_succ_self _)

/-- C7 counterexample: `Spider(2,1,x) >> Spider(1,2,x)` is a two-layer
diagram, not equal to the one-box diagram `Spider(2,2,x)`. -/
theorem spider_fusion_counterexample :
    Diagram.comp (Box.toDiagram (Box.spider 2 1 "x" none))
        (Box.toDiagram (Box.spider 1 2 "x" none))
      ≠ Box.toDiagram (Box.spider 2 2 "x" none) := by decide

/-- C7 amended: the fusion law holds denotationally: the composite
`Spider(2,1,x) >> Spider(1,2,x)` and the spider `Spider(2,2,x)` have the
same Frobenius matrix semantics. -/
theorem spider_fusion_sem :
    sem phiVal (Diagram.comp (Box.toDiagram (Box.spider 2 1 "x" none))
        (Box.toDiagram (Box.spider 1 2 "x" none)))
      = sem phiVal (Box.toDiagram (Box.spider 2 2 "x" none)) := by decide

/-- C1 counterexample: at arity (3,1), phase-free, the interchange normal
form of `Spider(3,1,x).unfuse()` (two binary spiders) differs from the
normal form of the single spider box. -/
theorem unfuse_normal_form_counterexample :
    normalForm (Spider.unfuse "x" 3 1 none)
      ≠ normalForm (Box.toDiagram (Box.spider 3 1 "x" none)) := by
  rw [unfuse_eq_fuel]; decide

/-- C1 amended: for the sampled arities, the unfused diagram has the same
Frobenius matrix semantics as the spider box itself, both phase-free and
with an arbitrary phase (syntactic normal-form equality fails, see the
counterexample). -/
theorem unfuse_denotation :
    (sem phiVal (Spider.unfuse "x" 3 1 none)
      = sem phiVal (Box.toDiagram (Box.spider 3 1 "x" none)))
  ∧ (sem phiVal (Spider.unfuse "x" 4 1 none)
      = sem phiVal (Box.toDiagram (Box.spider 4 1 "x" none)))
  ∧ (sem phiVal (Spider.unfuse "x" 5 1 none)
      = sem phiVal (Box.toDiagram (Box.spider 5 1 "x" none)))
  ∧ (sem phiVal (Spider.unfuse "x" 1 3 none)
      = sem phiVal (Box.toDiagram (Box.spider 1 3 "x" none)))
  ∧ (sem phiVal (Spider.unfuse "x" 3 3 none)
      = sem phiVal (Box.toDiagram (Box.spider 3 3 "x" none)))
  ∧ (∀ p : Int, sem phiVal (Spider.unfuse "x" 3 1 (some p))
      = sem phiVal (Box.toDiagram (Box.spider 3 1 "x" (some p))))
  ∧ (∀ p : Int, sem phiVal (Spider.unfuse "x" 4 1 (some p))
      = sem phiVal (Box.toDiagram (Box.spider 4 1 "x" (some p))))
  ∧ (∀ p : Int, sem phiVal (Spider.unfuse "x" 5 1 (some p))
      = sem phiVal (Box.toDiagram (Box.spider 5 1 "x" (some p))))
  ∧ (∀ p : Int, sem phiVal (Spider.unfuse "x" 1 3 (some p))
      = sem phiVal (Box.toDiagram (Box.spider 1 3 "x" (some p))))
  ∧ (∀ p : Int, sem phiVal (Spider.unfuse "x" 3 3 (some p))
      = sem phiVal (Box.toDiagram (Box.spider 3 3 "x" (some p)))) := by
  refine ⟨?_, ?_, ?_, ?_, ?_, ?_, ?_, ?_, ?_, ?_⟩
  · rw [unfuse_eq_fuel]; decide
  · rw [unfuse_eq_fuel]; decide
  · rw [unfuse_eq_fuel]; decide
  · rw [unfuse_eq_fuel]; decide
  · rw [unfuse_eq_fuel]; decide
  · intro p
    apply semVal_of_formal p
    · rw [← sem_erase (Spider.unfuse "x" 3 1 (some p)),
        ← sem_erase (Box.toDiagram (Box.spider 3 1 "x" (some p)))]
      rw [show erasePhases (Spider.unfuse "x" 3 1 (some p))
          = erasePhases (Spider.unfuse "x" 3 1 (some 0)) from by
        rw [unfuse_eq_fuel, unfuse_eq_fuel]; rfl]
      rw [show erasePhases (Box.toDiagram (Box.spider 3 1 "x" (some p)))
          = erasePhases (Box.toDiagram (Box.spider 3 1 "x" (some 0))) from rfl]
      rw [sem_erase, sem_erase, unfuse_eq_fuel]; decide
    · intro q hq
      rw [show phaseList (Spider.unfuse "x" 3 1 (some p))
          = [none, none, some p] from by rw [unfuse_eq_fuel]; rfl] at hq
      simp only [List.mem_cons, List.not_mem_nil, or_false] at hq
      tauto
    · intro q hq
      simp only [show phaseList (Box.toDiagram (Box.spider 3 1 "x" (some p)))
          = [some p] from rfl, List.mem_singleton] at hq
      tauto
  · intro p
    apply semVal_of_formal p
    · rw [← sem_erase (Spider.unfuse "x" 4 1 (some p)),
        ← sem_erase (Box.toDiagram (Box.spider 4 1 "x" (some p)))]
      rw [show erasePhases (Spider.unfuse "x" 4 1 (some p))
          = erasePhases (Spider.unfuse "x" 4 1 (some 0)) from by
        rw [unfuse_eq_fuel, unfuse_eq_fuel]; rfl]
      rw [show erasePhases (Box.toDiagram (Box.spider 4 1 "x" (some p)))
          = erasePhases (Box.toDiagram (Box.spider 4 1 "x" (some 0))) from rfl]
      rw [sem_erase, sem_erase, unfuse_eq_fuel]; decide
    · intro q hq
      rw [show phaseList (Spider.unfuse "x" 4 1 (some p))
          = [none, none, none, some p] from by rw [unfuse_eq_fuel]; rfl] at hq
      simp only [List.mem_cons, List.not_mem_nil, or_false] at hq
      tauto
    · intro q hq
      simp only [show phaseList (Box.toDiagram (Box.spider 4 1 "x" (some p)))
          = [some p] from rfl, List.mem_singleton] at hq
      tauto
  · intro p
    apply semVal_of_formal p
    · rw [← sem_erase (Spider.unfuse "x" 5 1 (some p)),
        ← sem_erase (Box.toDiagram (Box.spider 5 1 "x" (some p)))]
      rw [show erasePhases (Spider.unfuse "x" 5 1 (some p))
          = erasePhases (Spider.unfuse "x" 5 1 (some 0)) from by
        rw [unfuse_eq_fuel, unfuse_eq_fuel]; rfl]
      rw [show erasePhases (Box.toDiagram (Box.spider 5 1 "x" (some p)))
          = erasePhases (Box.toDiagram (Box.spider 5 1 "x" (some 0))) from rfl]
      rw [sem_erase, sem_erase, unfuse_eq_fuel]; decide
    · intro q hq
      rw [show phaseList (Spider.unfuse "x" 5 1 (some p))
          = [none, none, none, none, some p] from by
        rw [unfuse_eq_fuel]; rfl] at hq
      simp only [List.mem_cons, List.not_mem_nil, or_false] at hq
      tauto
    · intro q hq
      simp only [show phaseList (Box.toDiagram (Box.spider 5 1 "x" (some p)))
          = [some p] from rfl, List.mem_singleton] at hq
      tauto
  · intro p
    apply semVal_of_formal p
    · rw [← sem_erase (Spider.unfuse "x" 1 3 (some p)),
        ← sem_erase (Box.toDiagram (Box.spider 1 3 "x" (some p)))]
      rw [show erasePhases (Spider.unfuse "x" 1 3 (some p))
          = erasePhases (Spider.unfuse "x" 1 3 (some 0)) from by
        rw [unfuse_eq_fuel, unfuse_eq_fuel]; rfl]
      rw [show erasePhases (Box.toDiagram (Box.spider 1 3 "x" (some p)))
          = erasePhases (Box.toDiagram (Box.spider 1 3 "x" (some 0))) from rfl]
      rw [sem_erase, sem_erase, unfuse_eq_fuel]; decide
    · intro q hq
      rw [show phaseList (Spider.unfuse "x" 1 3 (some p))
          = [some p, none, none] from by rw [unfuse_eq_fuel]; rfl] at hq
      simp only [List.mem_cons, List.not_mem_nil, or_false] at hq
      tauto
    · intro q hq
      simp only [show phaseList (Box.toDiagram (Box.spider 1 3 "x" (some p)))
          = [some p] from rfl, List.mem_singleton] at hq
      tauto
  · intro p
    apply semVal_of_formal p
    · rw [← sem_erase (Spider.unfuse "x" 3 3 (some p)),
        ← sem_erase (Box.toDiagram (Box.spider 3 3 "x" (some p)))]
      rw [show erasePhases (Spider.unfuse "x" 3 3 (some p))
          = erasePhases (Spider.unfuse "x" 3 3 (some 0)) from by
        rw [unfuse_eq_fuel, unfuse_eq_fuel]; rfl]
      rw [show erasePhases (Box.toDiagram (Box.spider 3 3 "x" (some p)))
          = erasePhases (Box.toDiagram (Box.spider 3 3 "x" (some 0))) from rfl]
      rw [sem_erase, sem_erase, unfuse_eq_fuel]; decide
    · intro q hq
      rw [show phaseList (Spider.unfuse "x" 3 3 (some p))
          = [none, none, some p, none, none] from by
        rw [unfuse_eq_fuel]; rfl] at hq
      simp only [List.mem_cons, List.not_mem_nil, or_false] at hq
      tauto
    · intro q hq
      simp only [show phaseList (Box.toDiagram (Box.spider 3 3 "x" (some p)))
          = [some p] from rfl, List.mem_singleton] at hq
      tauto

end Frobenius

namespace ZX

/-! ### The circuit-to-spider boundary (`discopy/zx.py`) -/

/-- The quantum-circuit boxes `box2zx` dispatches on: the gate classes it
imports (`Bra`, `Ket`, `Rz`, `Rx`, `CRz`, `CRx` are matched by
`isinstance`; `H`, `CX`, `CZ` and the Paulis by equality), plus `CU1` boxes
and arbitrary other boxes, which no branch of the table matches. -/
inductive QBox where
  | bra (bits : List Bool)
  | ket (bits : List Bool)
  | rz (phase : Int)
  | rx (phase : Int)
  | h
  | cx
  | cz
  | pauliZ
  | pauliY
  | pauliX
  | crz (phase : Int)
  | crx (phase : Int)
  | cu1 (phase : Int)
  | other (name : String) (ndom ncod : ℕ)
deriving DecidableEq

/-- Syntax of the ZX expressions built by `box2zx`: `Z`/`X`/`Y` spiders with
a phase, the Hadamard box, identities, tensor `@` and composition `>>`, and
a passed-through box. -/
inductive ZXD where
  | zSpider (nIn nOut : ℕ) (phase : Int)
  | xSpider (nIn nOut : ℕ) (phase : Int)
  | ySpider (nIn nOut : ℕ) (phase : Int)
  | had
  | idZX (n : ℕ)
  | tens (a b : ZXD)
  | seq (a b : ZXD)
  | box (b : QBox)
deriving DecidableEq

/-- A Python bool used as a phase number. -/
def bitPhase (b : Bool) : Int := if b then 1 else 0

/-- `box2zx`: the per-gate translation table.  A `Bra`/`Ket` becomes a
`reduce` of tensored one-legged X spiders over its bitstring (`reduce` on an
empty bitstring raises `TypeError`); rotations become phased one-to-one
spiders; `H`, `CX`, `CZ`, the Paulis, `CRz` and `CRx` get their fixed
decompositions.  After the `CRx` branch the chain evaluates
`isinstance(box, CU1)`, and `CU1` is not imported in `zx.py`, so every
remaining box raises `NameError` — the final `return box` is
unreachable. -/
def box2zx : QBox → Except Frobenius.PyErr ZXD
  | .bra [] => .error .typeError
  | .bra (b0 :: bs) =>
      .ok (bs.foldl (fun acc b2 => .tens acc (.xSpider 1 0 (bitPhase b2)))
        (.xSpider 1 0 (bitPhase b0)))
  | .ket [] => .error .typeError
  | .ket (b0 :: bs) =>
      .ok (bs.foldl (fun acc b2 => .tens acc (.xSpider 0 1 (bitPhase b2)))
        (.xSpider 0 1 (bitPhase b0)))
  | .rz p => .ok (.zSpider 1 1 p)
  | .rx p => .ok (.xSpider 1 1 p)
  | .h => .ok .had
  | .cx => .ok (.seq (.tens (.zSpider 1 2 0) (.idZX 1))
      (.tens (.idZX 1) (.xSpider 2 1 0)))
  | .cz => .ok (.seq (.seq (.tens (.zSpider 1 2 0) (.idZX 1))
      (.tens (.tens (.idZX 1) .had) (.idZX 1)))
      (.tens (.idZX 1) (.zSpider 2 1 0)))
  | .pauliZ => .ok (.zSpider 1 1 1)
  | .pauliY => .ok (.ySpider 1 1 1)
  | .pauliX => .ok (.xSpider 1 1 1)
  | .crz p => .ok (.seq (.tens (.zSpider 1 2 0) (.zSpider 1 2 p))
      (.tens (.tens (.idZX 1) (.seq (.xSpider 2 1 0) (.zSpider 1 0 (-p))))
        (.idZX 1)))
  | .crx p => .ok (.seq (.tens (.xSpider 1 2 0) (.xSpider 1 2 p))
      (.tens (.tens (.idZX 1) (.seq (.zSpider 2 1 0) (.xSpider 1 0 (-p))))
        (.idZX 1)))
  | .cu1 _ => .error (.nameError "CU1")
  | .other _ _ _ => .error (.nameError "CU1")

/-- C8: a box not covered by the translation table is not returned
unchanged: evaluating the guard of the dead `CU1` branch raises
`NameError("CU1")`, both for arbitrary uncovered boxes and for actual `CU1`
gates. -/
theorem box2zx_fallthrough_name_error (name : String) (d c : ℕ) :
    box2zx (QBox.other name d c) = .error (.nameError "CU1") ∧
      ∀ p : Int, box2zx (QBox.cu1 p) = .error (.nameError "CU1") :=
  ⟨rfl, fun _ => rfl⟩

end ZX

namespace Frobenius

/-! ### Claim C3: the boundaries of `Diagram.spiders` -/

theorem tpow_zero (q : Ty) : tpow q 0 = [] := rfl

theorem tpow_succ_left (q : Ty) (r : ℕ) : tpow q (r + 1) = q ++ tpow q r := rfl

theorem tpow_one (q : Ty) : tpow q 1 = q := by
  rw [tpow_succ_left, tpow_zero, List.append_nil]

theorem tpow_succ_right (q : Ty) (r : ℕ) : tpow q (r + 1) = tpow q r ++ q := by
  induction r with
  | zero => rw [tpow_one, tpow_zero, List.nil_append]
  | succ r ih =>
      rw [tpow_succ_left, ih, ← List.append_assoc, ← tpow_succ_left, ih]

theorem tpow_length (q : Ty) (r : ℕ) : (tpow q r).length = r * q.length := by
  induction r with
  | zero => simp [tpow_zero]
  | succ r ih => rw [tpow_succ_left]; simp [ih]; ring

theorem tpow_nil (r : ℕ) : tpow ([] : Ty) r = [] := by
  induction r with
  | zero => rfl
  | succ r ih => rw [tpow_succ_left, ih]; rfl

/-- The per-object blocks of the initial tensor of spiders: `n` copies of
each object, in block order. -/
def blocks (n : ℕ) (s : Ty) : Ty := concatL (s.map (fun t2 => List.replicate n t2))

/-- The effect of one swap-insertion step of `Diagram.spiders` on the
boundary type: the object at position `l` moves to position `k`, i.e.
`D[:k] ++ [t] ++ D[k:l] ++ D[l+1:]`. -/
def shuffle (k l : ℕ) (t : Ob) (D : Ty) : Ty :=
  D.take k ++ t :: (pySlice D k l ++ D.drop (l + 1))

theorem take_append_add {α : Type} (A Z : List α) (k : ℕ) :
    (A ++ Z).take (A.length + k) = A ++ Z.take k := by
  rw [List.take_append_eq_append_take]
  simp [List.take_of_length_le, Nat.add_sub_cancel_left]

theorem drop_append_add {α : Type} (A Z : List α) (k : ℕ) :
    (A ++ Z).drop (A.length + k) = Z.drop k := by
  rw [List.drop_append_eq_append_drop]
  simp [List.drop_eq_nil_of_le, Nat.add_sub_cancel_left]

theorem spiderSwapIn_dom (n i j : ℕ) (t : Ob) (r : Diagram) :
    (spiderSwapIn n i j t r).dom
      = shuffle (i * j + i + j) (i * n + j) t r.dom := by
  simp [spiderSwapIn, Diagram.comp, Diagram.tensor, Diagram.id, swapTy_dom,
    shuffle, List.append_assoc]

theorem spiderSwapIn_cod (n i j : ℕ) (t : Ob) (r : Diagram) :
    (spiderSwapIn n i j t r).cod = r.cod := rfl

theorem spiderSwapOut_cod (m i j : ℕ) (t : Ob) (r : Diagram) :
    (spiderSwapOut m i j t r).cod
      = shuffle (i * j + i + j) (i * m + j) t r.cod := by
  simp [spiderSwapOut, Diagram.comp, Diagram.tensor, Diagram.id, swapTy_cod,
    shuffle, List.append_assoc]

theorem spiderSwapOut_dom (m i j : ℕ) (t : Ob) (r : Diagram) :
    (spiderSwapOut m i j t r).dom = r.dom := rfl

/-- The central invariant step: before step `j` of the inner loop for the
object `t` at index `i = pre.length`, the boundary is
`(pre ++ [t]) ** j ++ pre ** (n-j) ++ [t] * (n-j) ++ rest`, and the step's
shuffle advances `j` by one. -/
theorem shuffle_step (pre : Ty) (t : Ob) (rest : Ty) (n j : ℕ) (h : j + 2 ≤ n) :
    shuffle (pre.length * j + pre.length + j) (pre.length * n + j) t
        (tpow (pre ++ [t]) j
          ++ (tpow pre (n - j) ++ (List.replicate (n - j) t ++ rest)))
      = tpow (pre ++ [t]) (j + 1)
          ++ (tpow pre (n - j - 1) ++ (List.replicate (n - j - 1) t ++ rest)) := by
  obtain ⟨d, rfl⟩ : ∃ d, n = j + 2 + d := ⟨n - (j + 2), by omega⟩
  have e2 : j + 2 + d - j = d + 2 := by omega
  rw [e2, show d + 2 - 1 = d + 1 from rfl]
  have lenA : (tpow (pre ++ [t]) j).length = j * (pre.length + 1) := by
    rw [tpow_length]; simp
  have lenB : (tpow pre (d + 2)).length = (d + 2) * pre.length :=
    tpow_length pre (d + 2)
  have hk : pre.length * j + pre.length + j
      = (tpow (pre ++ [t]) j).length + pre.length := by rw [lenA]; ring
  have hl : pre.length * (j + 2 + d) + j
      = (tpow (pre ++ [t]) j).length + (tpow pre (d + 2)).length := by
    rw [lenA, lenB]; ring
  have hB : tpow pre (d + 2) = pre ++ tpow pre (d + 1) := tpow_succ_left pre (d + 1)
  have htake : (tpow (pre ++ [t]) j
        ++ (tpow pre (d + 2) ++ (List.replicate (d + 2) t ++ rest))).take
          (pre.length * j + pre.length + j)
      = tpow (pre ++ [t]) j ++ pre := by
    rw [hk, take_append_add, hB, List.append_assoc, List.take_left]
  have hslice : pySlice (tpow (pre ++ [t]) j
        ++ (tpow pre (d + 2) ++ (List.replicate (d + 2) t ++ rest)))
          (pre.length * j + pre.length + j) (pre.length * (j + 2 + d) + j)
      = tpow pre (d + 1) := by
    rw [pySlice, hl, take_append_add, List.take_left, hk, drop_append_add,
      hB, List.drop_left]
  have hdrop : (tpow (pre ++ [t]) j
        ++ (tpow pre (d + 2) ++ (List.replicate (d + 2) t ++ rest))).drop
          (pre.length * (j + 2 + d) + j + 1)
      = List.replicate (d + 1) t ++ rest := by
    rw [hl, Nat.add_assoc, drop_append_add, drop_append_add]
    rw [show List.replicate (d + 2) t = t :: List.replicate (d + 1) t from rfl]
    rfl
  rw [shuffle, htake, hslice, hdrop]
  rw [tpow_succ_right (pre ++ [t]) j]
  simp [List.append_assoc]

end Frobenius

namespace Frobenius

theorem inner_aux (pre : Ty) (t : Ob) (rest : Ty) (n : ℕ) :
    ∀ M, M ≤ n - 1 →
      (List.range M).foldl
          (fun D j => shuffle (pre.length * j + pre.length + j)
            (pre.length * n + j) t D)
          (tpow pre n ++ (List.replicate n t ++ rest))
        = tpow (pre ++ [t]) M
            ++ (tpow pre (n - M) ++ (List.replicate (n - M) t ++ rest)) := by
  intro M
  induction M with
  | zero => intro _; simp [tpow_zero]
  | succ M ih =>
      intro hM
      rw [List.range_succ, List.foldl_append, ih (by omega)]
      simp only [List.foldl_cons, List.foldl_nil]
      rw [shuffle_step pre t rest n M (by omega), Nat.sub_sub]

/-- The inner loop of `Diagram.spiders` for one object: starting from
`pre ** n ++ [t] * n ++ rest` it produces `(pre ++ [t]) ** n ++ rest`. -/
theorem inner_fold (pre : Ty) (t : Ob) (rest : Ty) (n : ℕ) :
    (List.range (n - 1)).foldl
        (fun D j => shuffle (pre.length * j + pre.length + j)
          (pre.length * n + j) t D)
        (tpow pre n ++ (List.replicate n t ++ rest))
      = tpow (pre ++ [t]) n ++ rest := by
  rcases n with _ | n2
  · simp [tpow_zero, tpow_nil]
  rcases n2 with _ | n3
  · simp [tpow_one, tpow_succ_left, tpow_zero, List.append_assoc]
  rw [show n3 + 1 + 1 - 1 = n3 + 1 from rfl,
    inner_aux pre t rest (n3 + 1 + 1) (n3 + 1) (by omega)]
  rw [show n3 + 1 + 1 - (n3 + 1) = 1 from by omega, tpow_one,
    List.replicate_one]
  conv_rhs => rw [tpow_succ_right]
  simp [List.append_assoc]

/-- The outer loop of `Diagram.spiders` over the enumerated objects
transposes the block-major boundary into the leg-major one. -/
theorem outer_fold (n : ℕ) : ∀ (suffix pre : Ty) (i : ℕ), i = pre.length →
    (List.enumFrom i suffix).foldl
        (fun D it => (List.range (n - 1)).foldl
          (fun D2 j => shuffle (it.1 * j + it.1 + j) (it.1 * n + j) it.2 D2) D)
        (tpow pre n ++ blocks n suffix)
      = tpow (pre ++ suffix) n
  | [], pre, i, hi => by simp [blocks, concatL]
  | t :: ss, pre, i, hi => by
      subst hi
      rw [List.enumFrom_cons, List.foldl_cons,
        show blocks n (t :: ss) = List.replicate n t ++ blocks n ss from rfl,
        inner_fold pre t (blocks n ss) n,
        outer_fold n ss (pre ++ [t]) (pre.length + 1) (by simp)]
      simp [List.append_assoc]

theorem spidersInit_dom (n m : ℕ) : ∀ (l : List (Ob × Option Int)) (acc : Diagram),
    (l.foldl (fun acc2 xp =>
        Diagram.tensor acc2 (Box.toDiagram (Box.spider n m xp.1 xp.2))) acc).dom
      = acc.dom ++ concatL (l.map (fun xp => List.replicate n xp.1))
  | [], acc => by simp [concatL]
  | xp :: l, acc => by
      rw [List.foldl_cons, spidersInit_dom n m l _]
      simp [Diagram.tensor, Box.toDiagram, Box.dom, concatL, List.append_assoc]

theorem spidersInit_cod (n m : ℕ) : ∀ (l : List (Ob × Option Int)) (acc : Diagram),
    (l.foldl (fun acc2 xp =>
        Diagram.tensor acc2 (Box.toDiagram (Box.spider n m xp.1 xp.2))) acc).cod
      = acc.cod ++ concatL (l.map (fun xp => List.replicate m xp.1))
  | [], acc => by simp [concatL]
  | xp :: l, acc => by
      rw [List.foldl_cons, spidersInit_cod n m l _]
      simp [Diagram.tensor, Box.toDiagram, Box.cod, concatL, List.append_assoc]

theorem foldl_swapOut_dom (m i : ℕ) (t : Ob) : ∀ (ls : List ℕ) (acc : Diagram),
    (ls.foldl (fun a j => spiderSwapOut m i j t a) acc).dom = acc.dom
  | [], _ => rfl
  | j :: ls, acc => by
      rw [List.foldl_cons, foldl_swapOut_dom m i t ls _, spiderSwapOut_dom]

theorem foldl_swapIn_cod (n i : ℕ) (t : Ob) : ∀ (ls : List ℕ) (acc : Diagram),
    (ls.foldl (fun a j => spiderSwapIn n i j t a) acc).cod = acc.cod
  | [], _ => rfl
  | j :: ls, acc => by
      rw [List.foldl_cons, foldl_swapIn_cod n i t ls _, spiderSwapIn_cod]

theorem foldl_swapIn_dom (n i : ℕ) (t : Ob) : ∀ (ls : List ℕ) (acc : Diagram),
    (ls.foldl (fun a j => spiderSwapIn n i j t a) acc).dom
      = ls.foldl (fun D j => shuffle (i * j + i + j) (i * n + j) t D) acc.dom
  | [], _ => rfl
  | j :: ls, acc => by
      rw [List.foldl_cons, List.foldl_cons, foldl_swapIn_dom n i t ls _,
        spiderSwapIn_dom]

theorem foldl_swapOut_cod (m i : ℕ) (t : Ob) : ∀ (ls : List ℕ) (acc : Diagram),
    (ls.foldl (fun a j => spiderSwapOut m i j t a) acc).cod
      = ls.foldl (fun D j => shuffle (i * j + i + j) (i * m + j) t D) acc.cod
  | [], _ => rfl
  | j :: ls, acc => by
      rw [List.foldl_cons, List.foldl_cons, foldl_swapOut_cod m i t ls _,
        spiderSwapOut_cod]

theorem zip_map_fst_replicate (n : ℕ) (typ : Ty) :
    concatL ((typ.zip (typ.map (fun _ => (none : Option Int)))).map
        (fun xp => List.replicate n xp.1))
      = blocks n typ := by
  rw [blocks]
  congr 1
  rw [show (fun xp : Ob × Option Int => List.replicate n xp.1)
      = (fun t2 => List.replicate n t2) ∘ Prod.fst from rfl, ← List.map_map]
  rw [List.map_fst_zip]
  simp

theorem spiders_dom (n m : ℕ) (typ : Ty) :
    (Diagram.spiders n m typ none).dom = tpow typ n := by
  unfold Diagram.spiders
  simp only []
  rw [← List.foldl_hom Diagram.dom
    (fun acc it => (List.range (m - 1)).foldl
      (fun a j => spiderSwapOut m it.1 j it.2 a)
      ((List.range (n - 1)).foldl (fun a j => spiderSwapIn n it.1 j it.2 a) acc))
    (fun D it => (List.range (n - 1)).foldl
      (fun D2 j => shuffle (it.1 * j + it.1 + j) (it.1 * n + j) it.2 D2) D)
    typ.enum _
    (fun acc it => by rw [foldl_swapOut_dom, foldl_swapIn_dom])]
  rw [spidersInit_dom, zip_map_fst_replicate]
  rw [show (Diagram.id []).dom ++ blocks n typ
      = tpow ([] : Ty) n ++ blocks n typ from by
    rw [tpow_nil]; rfl]
  rw [show typ.enum = List.enumFrom 0 typ from rfl]
  rw [outer_fold n typ [] 0 rfl]
  rfl

theorem spiders_cod (n m : ℕ) (typ : Ty) :
    (Diagram.spiders n m typ none).cod = tpow typ m := by
  unfold Diagram.spiders
  simp only []
  rw [← List.foldl_hom Diagram.cod
    (fun acc it => (List.range (m - 1)).foldl
      (fun a j => spiderSwapOut m it.1 j it.2 a)
      ((List.range (n - 1)).foldl (fun a j => spiderSwapIn n it.1 j it.2 a) acc))
    (fun D it => (List.range (m - 1)).foldl
      (fun D2 j => shuffle (it.1 * j + it.1 + j) (it.1 * m + j) it.2 D2) D)
    typ.enum _
    (fun acc it => by rw [foldl_swapOut_cod, foldl_swapIn_cod])]
  rw [spidersInit_cod, zip_map_fst_replicate]
  rw [show (Diagram.id []).cod ++ blocks m typ
      = tpow ([] : Ty) m ++ blocks m typ from by
    rw [tpow_nil]; rfl]
  rw [show typ.enum = List.enumFrom 0 typ from rfl]
  rw [outer_fold m typ [] 0 rfl]
  rfl

/-- C3: `Diagram.spiders n m typ` has domain `typ ** n` and codomain
`typ ** m` for every composite type; in particular the atomic box
`Spider(1, 2, Ty(x))` has domain `Ty(x)` and codomain `Ty(x) @ Ty(x)`. -/
theorem spiders_boundaries (n m : ℕ) (typ : Ty) :
    (Diagram.spiders n m typ none).dom = tpow typ n
  ∧ (Diagram.spiders n m typ none).cod = tpow typ m
  ∧ (Box.spider 1 2 "x" none).dom = ["x"]
  ∧ (Box.spider 1 2 "x" none).cod = ["x"] ++ ["x"]
  ∧ spiderInit 1 2 ["x"] none = .ok (Box.spider 1 2 "x" none) :=
  ⟨spiders_dom n m typ, spiders_cod n m typ, rfl, rfl, rfl⟩

end Frobenius
